import Mathlib

/-!
Verification development for the flexchat FLTK frontend
(src/fe-fltk/fe-fltk.cpp).

The C++ code is shallowly embedded: each C string is a `List Char`
where every `Char` stands for one byte of the C string (all the
control bytes and the ASCII data the claims are about are single
bytes; multi-byte UTF-8 sequences are carried through byte by byte by
the C code, and likewise here).  Scanning loops that may consume more
than one byte per iteration are written with an explicit fuel
parameter initialised to the length of the scanned list; since every
iteration of the C loop consumes at least one byte, the fuel never
runs out on the initial call (this is proved as a fuel-irrelevance
lemma for the main scanner).
-/

namespace FlexChat

/-! ### ASCII character classes (g_ascii_isdigit / g_ascii_isspace) -/

/-- g_ascii_isdigit: byte in 48..57. -/
def isAsciiDigitB (c : Char) : Bool := decide (48 ≤ c.toNat ∧ c.toNat ≤ 57)

/-- g_ascii_isspace: space, \t, \n, \v, \f, \r. -/
def isAsciiSpaceB (c : Char) : Bool :=
  decide (c.toNat = 32 ∨ (9 ≤ c.toNat ∧ c.toNat ≤ 13))

/-- ASCII lowercasing, as used by g_ascii_strncasecmp / strncasecmp. -/
def asciiLower (c : Char) : Char :=
  if 65 ≤ c.toNat ∧ c.toNat ≤ 90 then Char.ofNat (c.toNat + 32) else c

/-- Case-insensitive prefix test: `g_ascii_strncasecmp (p, pat, |pat|) == 0`. -/
def prefixCaseless : List Char → List Char → Bool
  | [], _ => true
  | _ :: _, [] => false
  | a :: as, b :: bs => (asciiLower a == asciiLower b) && prefixCaseless as bs

/-! ### looks_like_url (fe-fltk.cpp:1436-1446) -/

def looks_like_url (p : List Char) : Bool :=
  match p with
  | [] => false
  | _ =>
    prefixCaseless (String.toList "http://") p ||
    prefixCaseless (String.toList "https://") p ||
    prefixCaseless (String.toList "ftp://") p ||
    prefixCaseless (String.toList "irc://") p ||
    prefixCaseless (String.toList "www.") p

/-- A byte the URL span consumption loop accepts:
`*p && !g_ascii_isspace (*p) && (unsigned char)*p >= 0x20`. -/
def urlChar (c : Char) : Bool := !isAsciiSpaceB c && decide (32 ≤ c.toNat)

/-! ### hash_nick_color (fe-fltk.cpp:1783-1788) -/

/-- Sum of the byte values of the nick, modulo 16. -/
def hash_nick_color (nick : List Char) : Nat :=
  (nick.foldl (fun sum c => sum + c.toNat) 0) % 16

/-! ### Nick detection (fe-fltk.cpp:1790-1824)

Returns `(nick_start, nick_len, nick_color)`; `(-1, 0, -1)` when no
nick was detected, exactly like the C initialisation. -/

def isSpTab (c : Char) : Bool := c == ' ' || c == '\t'

def nickDetect (msg : List Char) : Int × Int × Int :=
  let off : Int := (msg.takeWhile isSpTab).length
  match msg.dropWhile isSpTab with
  | '<' :: rest =>
    let nick := rest.takeWhile (fun c => !(c == '>') && !(c == ' '))
    (match rest.dropWhile (fun c => !(c == '>') && !(c == ' ')) with
     | '>' :: _ => (off + 1, (nick.length : Int), (hash_nick_color nick : Int))
     | _ => (-1, 0, -1))
  | '*' :: ' ' :: rest =>
    let nick := rest.takeWhile (fun c => !(c == ' '))
    if nick.length > 0 then (off + 2, (nick.length : Int), (hash_nick_color nick : Int))
    else (-1, 0, -1)
  | _ => (-1, 0, -1)

/-! ### Transcoder parse state and style computation -/

/-- The `ParseState` of the main scan loop: `in_ctcp`, `fg` (−1 = none),
`bold`, `underline` (fe-fltk.cpp:1842-1845). -/
structure TState where
  in_ctcp : Bool := false
  fg : Int := -1
  bold : Bool := false
  underline : Bool := false
  deriving Repr, DecidableEq

/-- The `style_for_state` lambda (fe-fltk.cpp:1846-1858). -/
def style_for_state (in_ctcp : Bool) (fg : Int) (bold underline : Bool)
    (hyperlink : Bool) : Char :=
  if hyperlink then Char.ofNat (65 + 57)
  else if in_ctcp && decide (fg < 0) && !bold && !underline then 'C'
  else
    let base : Int := if 0 ≤ fg ∧ fg < 16 then 3 + fg else 0
    let region : Int := 19
    let base := if bold then base + region
                else if underline then base + region * 2 else base
    Char.ofNat (65 + base.toNat)

/-! ### Color-argument consumption for 0x03 (fe-fltk.cpp:1870-1881) -/

/-- Consume up to two ASCII digits (the `for (k = 0; k < 2 && isdigit; ...)` loop). -/
def dropUpTo2Digits : List Char → List Char
  | [] => []
  | a :: rest =>
    if isAsciiDigitB a then
      match rest with
      | [] => []
      | b :: rest2 => if isAsciiDigitB b then rest2 else b :: rest2
    else a :: rest

/-- Consume `fg` digits, then an optional comma followed by `bg` digits. -/
def dropColorArgs (p : List Char) : List Char :=
  match dropUpTo2Digits p with
  | ',' :: r => dropUpTo2Digits r
  | q => q

/-! ### The main scan loop (fe-fltk.cpp:1860-1913)

`ni` is the nick-detection triple, `pos` is `out_pos` (the current
length of `out`, including any timestamp prefix).  Returns the pair of
byte runs appended to `(out, styles)` by the loop. -/

def scanBody (ni : Int × Int × Int) :
    Nat → List Char → TState → Int → List Char × List Char
  | 0, _, _, _ => ([], [])
  | _ + 1, [], _, _ => ([], [])
  | fuel + 1, c :: p, st, pos =>
    if c == '\x01' then
      scanBody ni fuel p { st with in_ctcp := !st.in_ctcp } pos
    else if c == '\x03' then
      scanBody ni fuel (dropColorArgs p) st pos
    else if c == '\x02' then
      scanBody ni fuel p { st with bold := !st.bold } pos
    else if c == '\x1f' then
      scanBody ni fuel p { st with underline := !st.underline } pos
    else if c == '\x16' then
      scanBody ni fuel p st pos
    else if c == '\x0f' then
      scanBody ni fuel p { st with fg := -1, bold := false, underline := false } pos
    else if c == '\x07' then
      scanBody ni fuel p st pos
    else if looks_like_url (c :: p) then
      let span := (c :: p).takeWhile urlChar
      let rest := (c :: p).dropWhile urlChar
      let sty := style_for_state st.in_ctcp st.fg st.bold st.underline true
      let next := scanBody ni fuel rest st (pos + span.length)
      (span ++ next.1, List.replicate span.length sty ++ next.2)
    else
      let applyNick := decide (0 ≤ ni.1) && decide (0 ≤ ni.2.2) &&
        decide (ni.1 ≤ pos) && decide (pos < ni.1 + ni.2.1)
      let fgUse := if applyNick then ni.2.2 else st.fg
      let sty := style_for_state st.in_ctcp fgUse st.bold st.underline false
      let next := scanBody ni fuel p st (pos + 1)
      (c :: next.1, sty :: next.2)

/-! ### append_text (fe-fltk.cpp:1750-1937)

`ts` models the formatted timestamp string (`tbuf`) when
`prefs.hex_stamp_text` is set and `strftime` succeeds, `none`
otherwise.  The result is the `(out, styles)` pair the function builds
and appends to the session buffers. -/

/-- The `\x01ACTION ` prefix test:
`msg[0] == '\001' && strncmp (msg, "\001ACTION ", 8) == 0`. -/
def isActionMsg (msg : List Char) : Bool :=
  msg.take 8 == ['\x01', 'A', 'C', 'T', 'I', 'O', 'N', ' ']

/-- The trailing-newline step (fe-fltk.cpp:1916-1920): if `out` is
empty or does not end in a newline, a newline is appended to `out` and
a base tag to `styles`. -/
def finishLine (pair : List Char × List Char) : List Char × List Char :=
  if pair.1.getLast? == some '\n' then pair
  else (pair.1 ++ ['\n'], pair.2 ++ ['A'])

/-- The timestamp prefix (fe-fltk.cpp:1762-1775): when
`prefs.hex_stamp_text` is set and `strftime` produced `t`, the pair
`(t ++ " ", replicate (strlen t + 1) 'A')` opens both runs. -/
def tsPrefix : Option (List Char) → List Char × List Char
  | some t => (t ++ [' '], List.replicate (t.length + 1) 'A')
  | none => ([], [])

def append_text (ts : Option (List Char)) (msg : List Char) :
    List Char × List Char :=
  let out0 : List Char := (tsPrefix ts).1
  let sty0 : List Char := (tsPrefix ts).2
  let body : List Char × List Char :=
    if isActionMsg msg then
      let tail := msg.drop 8
      let b := if tail.getLast? == some '\x01' then tail.dropLast else tail
      ('*' :: ' ' :: b, List.replicate (b.length + 2) 'B')
    else
      scanBody (nickDetect msg) msg.length msg {} (out0.length : Int)
  finishLine (out0 ++ body.1, sty0 ++ body.2)

/-- The buffer append step (fe-fltk.cpp:1922-1924): `out` is always
appended to the text buffer; `styles` is appended to the style buffer
only under the defensive length guard. -/
def bufferAppend (buf : List Char × List Char)
    (call : Option (List Char) × List Char) : List Char × List Char :=
  let pair := append_text call.1 call.2
  let b1 := buf.1 ++ pair.1
  let s1 := if buf.2.length ≤ b1.length then buf.2 ++ pair.2 else buf.2
  (b1, s1)

/-! ## C1: equal lengths of visible text and style tags -/

theorem scanBody_len (ni : Int × Int × Int) :
    ∀ (fuel : Nat) (p : List Char) (st : TState) (pos : Int),
      (scanBody ni fuel p st pos).1.length = (scanBody ni fuel p st pos).2.length := by
  intro fuel
  induction fuel with
  | zero => intro p st pos; simp [scanBody]
  | succ n ih =>
    intro p st pos
    match p with
    | [] => simp [scanBody]
    | c :: p =>
      simp only [scanBody]
      split
      · exact ih _ _ _
      · split
        · exact ih _ _ _
        · split
          · exact ih _ _ _
          · split
            · exact ih _ _ _
            · split
              · exact ih _ _ _
              · split
                · exact ih _ _ _
                · split
                  · exact ih _ _ _
                  · split
                    · simp only [List.length_append, List.length_replicate]
                      rw [ih]
                    · simp only [List.length_cons]
                      rw [ih]

theorem finishLine_len (pair : List Char × List Char)
    (h : pair.1.length = pair.2.length) :
    (finishLine pair).1.length = (finishLine pair).2.length := by
  unfold finishLine
  split
  · exact h
  · simp [h]

theorem tsPrefix_len (ts : Option (List Char)) :
    (tsPrefix ts).1.length = (tsPrefix ts).2.length := by
  cases ts <;> simp [tsPrefix]

theorem append_text_len (ts : Option (List Char)) (msg : List Char) :
    (append_text ts msg).1.length = (append_text ts msg).2.length := by
  unfold append_text
  apply finishLine_len
  simp only [List.length_append, tsPrefix_len ts]
  split <;> simp [scanBody_len]

/-- C1: a single transcoder call produces a style run and a visible-text
run of equal length (timestamp prefix and trailing newline included),
hence the buffer invariant `len(style_tags) = len(visible_text)` holds
after every append across the buffer's lifetime. -/
theorem C1_append_text_length_invariant :
    (∀ (ts : Option (List Char)) (msg : List Char),
      (append_text ts msg).1.length = (append_text ts msg).2.length) ∧
    (∀ calls : List (Option (List Char) × List Char),
      (calls.foldl bufferAppend ([], [])).1.length
        = (calls.foldl bufferAppend ([], [])).2.length) := by
  constructor
  · exact append_text_len
  · intro calls
    suffices h : ∀ (buf : List Char × List Char),
        buf.1.length = buf.2.length →
        (calls.foldl bufferAppend buf).1.length
          = (calls.foldl bufferAppend buf).2.length by
      exact h ([], []) rfl
    induction calls with
    | nil => intro buf h; exact h
    | cons c rest ih =>
      intro buf h
      simp only [List.foldl_cons]
      apply ih
      simp only [bufferAppend]
      rw [if_pos]
      · simp [append_text_len c.1 c.2, h]
      · simp [h]

/-! ## C3: style slot precedence -/

/-- Spec-side slot computation (§4.1 of the spec): hyperlink slot wins;
else the CTCP slot when `in_ctcp` with no foreground/bold/underline;
else base `3 + foreground` (or 0), replaced by the bold-region
equivalent when bold is on — bold taking exclusive precedence over
underline — else by the underline-region equivalent. -/
def styleSlotSpec (hyperlink in_ctcp : Bool) (fg : Option (Fin 16))
    (bold underline : Bool) : Nat :=
  if hyperlink then 57
  else if in_ctcp = true ∧ fg = none ∧ bold = false ∧ underline = false then 2
  else
    let base : Nat := match fg with
      | some f => 3 + (f : Nat)
      | none => 0
    if bold then base + 19 else if underline then base + 38 else base

/-- How the spec's `Option` foreground is represented in the code
(`int fg`, −1 meaning none). -/
def encodeFg : Option (Fin 16) → Int
  | none => -1
  | some f => (f : Int)

/-- C3: the code's `style_for_state` computes exactly the spec's slot
precedence (hyperlink > CTCP > base/bold/underline, bold exclusive
over underline), and the bold-toggle scenario: input
`"\x02Hello\x02 world"` yields visible text `"Hello world"` with the
first 5 characters in the bold-default slot (19, tag 'T') and the
remaining 7 visible positions (including the appended newline) in the
base slot (0, tag 'A'). -/
theorem C3_style_precedence :
    (∀ (hy ctcp bold ul : Bool) (fg : Option (Fin 16)),
      style_for_state ctcp (encodeFg fg) bold ul hy
        = Char.ofNat (65 + styleSlotSpec hy ctcp fg bold ul)) ∧
    (∀ (ctcp : Bool) (fg : Option (Fin 16)),
      styleSlotSpec false ctcp fg true true = styleSlotSpec false ctcp fg true false) ∧
    append_text none (String.toList "\x02Hello\x02 world")
      = (String.toList "Hello world\n",
         List.replicate 5 (Char.ofNat (65 + 19)) ++ List.replicate 7 (Char.ofNat 65)) := by
  decide

/-! ## C2: the mIRC color introducer

The code at fe-fltk.cpp:1870-1881 consumes the digit/comma arguments
of the 0x03 introducer but never assigns `fg`: color codes are
stripped with no styling effect.  The claim that the foreground parse
state is set to the parsed index is therefore false. -/

theorem dropUpTo2Digits_le (l : List Char) :
    (dropUpTo2Digits l).length ≤ l.length := by
  match l with
  | [] => simp [dropUpTo2Digits]
  | [a] =>
    simp only [dropUpTo2Digits]
    split <;> simp
  | a :: b :: rest2 =>
    simp only [dropUpTo2Digits]
    split
    · split <;> simp only [List.length_cons] <;> omega
    · omega

theorem dropColorArgs_le (l : List Char) :
    (dropColorArgs l).length ≤ l.length := by
  unfold dropColorArgs
  have h := dropUpTo2Digits_le l
  split
  · rename_i r heq
    have h2 := dropUpTo2Digits_le r
    rw [heq] at h
    simp at h
    omega
  · exact h

theorem prefixCaseless_head (a b : Char) (as bs : List Char)
    (h : prefixCaseless (a :: as) (b :: bs) = true) :
    asciiLower a = asciiLower b := by
  simp only [prefixCaseless, Bool.and_eq_true, beq_iff_eq] at h
  exact h.1

theorem urlChar_iff (c : Char) :
    urlChar c = true ↔
      ¬(c.toNat = 32 ∨ (9 ≤ c.toNat ∧ c.toNat ≤ 13)) ∧ 32 ≤ c.toNat := by
  simp [urlChar, isAsciiSpaceB]
  omega

theorem urlChar_of_lower (c d : Char)
    (hd : d.toNat = 104 ∨ d.toNat = 102 ∨ d.toNat = 105 ∨ d.toNat = 119)
    (h : asciiLower c = d) : urlChar c = true := by
  unfold asciiLower at h
  rw [urlChar_iff]
  by_cases hc : 65 ≤ c.toNat ∧ c.toNat ≤ 90
  · omega
  · rw [if_neg hc] at h
    subst h
    omega

theorem urlChar_of_looks (c : Char) (p : List Char)
    (h : looks_like_url (c :: p) = true) : urlChar c = true := by
  simp only [looks_like_url, Bool.or_eq_true] at h
  have e1 : String.toList "http://" = 'h' :: String.toList "ttp://" := rfl
  have e2 : String.toList "https://" = 'h' :: String.toList "ttps://" := rfl
  have e3 : String.toList "ftp://" = 'f' :: String.toList "tp://" := rfl
  have e4 : String.toList "irc://" = 'i' :: String.toList "rc://" := rfl
  have e5 : String.toList "www." = 'w' :: String.toList "ww." := rfl
  rcases h with ((((h | h) | h) | h) | h)
  · rw [e1] at h
    exact urlChar_of_lower c (asciiLower 'h') (by decide) (prefixCaseless_head _ _ _ _ h).symm
  · rw [e2] at h
    exact urlChar_of_lower c (asciiLower 'h') (by decide) (prefixCaseless_head _ _ _ _ h).symm
  · rw [e3] at h
    exact urlChar_of_lower c (asciiLower 'f') (by decide) (prefixCaseless_head _ _ _ _ h).symm
  · rw [e4] at h
    exact urlChar_of_lower c (asciiLower 'i') (by decide) (prefixCaseless_head _ _ _ _ h).symm
  · rw [e5] at h
    exact urlChar_of_lower c (asciiLower 'w') (by decide) (prefixCaseless_head _ _ _ _ h).symm

theorem dropWhile_len_le (q : Char → Bool) (l : List Char) :
    (l.dropWhile q).length ≤ l.length := by
  induction l with
  | nil => simp
  | cons a as ih =>
    rw [List.dropWhile_cons]
    split
    · simp only [List.length_cons]
      omega
    · simp

/-- The scan result does not depend on the fuel as long as the fuel is
at least the length of the scanned byte run (every loop iteration of
the C code consumes at least one byte). -/
theorem scanBody_fuel (ni : Int × Int × Int) :
    ∀ (f1 : Nat) (p : List Char) (st : TState) (pos : Int) (f2 : Nat),
      p.length ≤ f1 → p.length ≤ f2 →
      scanBody ni f1 p st pos = scanBody ni f2 p st pos := by
  intro f1
  induction f1 with
  | zero =>
    intro p st pos f2 h1 _
    have hp : p = [] := by
      cases p with
      | nil => rfl
      | cons a as => simp at h1
    subst hp
    cases f2 <;> rfl
  | succ a ih =>
    intro p st pos f2 h1 h2
    match p with
    | [] => cases f2 <;> rfl
    | c :: p =>
      match f2 with
      | 0 => simp at h2
      | b + 1 =>
        have hpa : p.length ≤ a := by simp at h1; omega
        have hpb : p.length ≤ b := by simp at h2; omega
        conv_lhs => rw [scanBody]
        conv_rhs => rw [scanBody]
        by_cases g1 : (c == '\x01') = true
        · simp only [g1, if_true]
          exact ih _ _ _ _ hpa hpb
        simp only [g1, Bool.false_eq_true, if_false]
        by_cases g2 : (c == '\x03') = true
        · simp only [g2, if_true]
          exact ih _ _ _ _
            (le_trans (dropColorArgs_le p) hpa)
            (le_trans (dropColorArgs_le p) hpb)
        simp only [g2, Bool.false_eq_true, if_false]
        by_cases g3 : (c == '\x02') = true
        · simp only [g3, if_true]
          exact ih _ _ _ _ hpa hpb
        simp only [g3, Bool.false_eq_true, if_false]
        by_cases g4 : (c == '\x1f') = true
        · simp only [g4, if_true]
          exact ih _ _ _ _ hpa hpb
        simp only [g4, Bool.false_eq_true, if_false]
        by_cases g5 : (c == '\x16') = true
        · simp only [g5, if_true]
          exact ih _ _ _ _ hpa hpb
        simp only [g5, Bool.false_eq_true, if_false]
        by_cases g6 : (c == '\x0f') = true
        · simp only [g6, if_true]
          exact ih _ _ _ _ hpa hpb
        simp only [g6, Bool.false_eq_true, if_false]
        by_cases g7 : (c == '\x07') = true
        · simp only [g7, if_true]
          exact ih _ _ _ _ hpa hpb
        simp only [g7, Bool.false_eq_true, if_false]
        by_cases g8 : looks_like_url (c :: p) = true
        · simp only [g8, if_true]
          have hc := urlChar_of_looks c p g8
          have hdrop : (c :: p).dropWhile urlChar = p.dropWhile urlChar := by
            simp [List.dropWhile_cons, hc]
          rw [ih ((c :: p).dropWhile urlChar) st _ b
            (by rw [hdrop]; exact le_trans (dropWhile_len_le _ _) hpa)
            (by rw [hdrop]; exact le_trans (dropWhile_len_le _ _) hpb)]
        simp only [g8, Bool.false_eq_true, if_false]
        rw [ih p st (pos + 1) b hpa hpb]

/-- C2 counterexample: for input 0x03 "04red" the claim predicts that
the foreground state becomes 4 and that "red" is styled with slot
3 + 4 = 7 (tag 'H'); the code styles every visible character with the
base tag 'A' instead. -/
theorem C2_counterexample :
    (append_text none ['\x03', '0', '4', 'r', 'e', 'd']).1
        = ['r', 'e', 'd', '\n'] ∧
    (append_text none ['\x03', '0', '4', 'r', 'e', 'd']).2
        = ['A', 'A', 'A', 'A'] ∧
    ('A' : Char) ≠ Char.ofNat (65 + (3 + 4)) := by
  decide

/-- C2 amended: the color introducer consumes its 0–2 digits and
optional comma plus 0–2 digits, produces no visible output, and leaves
the whole parse state (foreground included) unchanged: scanning
`0x03 ++ args ++ rest` from any state equals scanning `rest` from the
same state. -/
theorem C2_amended_color_introducer_stripped (ni : Int × Int × Int)
    (cs rest : List Char) (st : TState) (pos : Int)
    (h : dropColorArgs (cs ++ rest) = rest) :
    scanBody ni ('\x03' :: (cs ++ rest)).length ('\x03' :: (cs ++ rest)) st pos
      = scanBody ni rest.length rest st pos := by
  have step : scanBody ni ('\x03' :: (cs ++ rest)).length ('\x03' :: (cs ++ rest)) st pos
      = scanBody ni (cs ++ rest).length (dropColorArgs (cs ++ rest)) st pos := rfl
  rw [step, h]
  exact scanBody_fuel ni (cs ++ rest).length rest st pos rest.length
    (by simp) (le_refl _)

/-- C2 amended, witness: at the concrete input of the counterexample
the hypothesis (the argument run "04" is exactly consumed) holds and
the scan of 0x03 "04red" equals the scan of "red". -/
theorem C2_amended_witness :
    dropColorArgs (['0', '4'] ++ ['r', 'e', 'd']) = ['r', 'e', 'd'] ∧
    scanBody (-1, 0, -1) ('\x03' :: (['0', '4'] ++ ['r', 'e', 'd'])).length
        ('\x03' :: (['0', '4'] ++ ['r', 'e', 'd'])) {} 0
      = scanBody (-1, 0, -1) (['r', 'e', 'd'] : List Char).length ['r', 'e', 'd'] {} 0 :=
  ⟨by decide,
   C2_amended_color_introducer_stripped (-1, 0, -1) ['0', '4'] ['r', 'e', 'd'] {} 0 (by decide)⟩

/-! ## C6: the nick color hash -/

theorem foldl_add_toNat (l : List Char) :
    ∀ s : Nat, l.foldl (fun sum c => sum + c.toNat) s = s + (l.map Char.toNat).sum := by
  induction l with
  | nil => intro s; simp
  | cons c cs ih => intro s; simp [ih]; omega

/-- C6: `hash_nick_color` equals the sum of the byte values of the
nickname modulo 16; it is a pure function of the string and its result
always lies in [0, 15]. -/
theorem C6_hash_nick_color :
    ∀ nick : List Char,
      hash_nick_color nick = (nick.map Char.toNat).sum % 16 ∧
      hash_nick_color nick < 16 ∧
      hash_nick_color nick = hash_nick_color nick := by
  intro nick
  refine ⟨?_, ?_, rfl⟩
  · unfold hash_nick_color
    rw [foldl_add_toNat, Nat.zero_add]
  · exact Nat.mod_lt _ (by norm_num)

/-! ## The enchant spell-checking subsystem (fe-fltk.cpp:69-338)

The enchant library is an external capability loaded with dlopen; it
is modelled by oracles: `avail lang` tells whether
`enchant_broker_request_dict` succeeds for a language tag, `baseChk`
models the word list of a language dictionary proper, and `suggest`
models `enchant_dict_suggest`.  A loaded dictionary is its language
tag plus its session vocabulary (the words passed to
`enchant_dict_add_to_session`); `enchant_dict_check` accepts a word
that is in the dictionary's word list or its session vocabulary. -/

structure EnchantDictM where
  lang : List Char
  sessionVocab : List (List Char)
  deriving Repr, DecidableEq

/-- Global spell state: `have_enchant`, `spell_broker`, `spell_dicts`,
`spell_session_ignores` (fe-fltk.cpp:98-102). -/
structure SpellSt where
  have_enchant : Bool
  broker : Option Unit
  dicts : List EnchantDictM
  ignores : List (List Char)
  deriving Repr, DecidableEq

/-- Models `enchant_dict_check (dict, word) == 0`: correct if the word is in
the dictionary's word list or its session vocabulary. -/
def dictCheck (baseChk : List Char → List Char → Bool)
    (d : EnchantDictM) (w : List Char) : Bool :=
  w ∈ d.sessionVocab || baseChk d.lang w

/-! ### spell_check_word (fe-fltk.cpp:206-235) -/

def spell_check_word (alpha : Char → Bool)
    (baseChk : List Char → List Char → Bool)
    (st : SpellSt) (word : List Char) : Bool :=
  if st.have_enchant = false ∨ st.dicts = [] ∨ word = [] then true
  else if 4 ≤ word.length ∧
      (prefixCaseless (String.toList "http") word ||
       prefixCaseless (String.toList "ftp:") word ||
       prefixCaseless (String.toList "irc:") word) = true then true
  else if alpha (word.headD (Char.ofNat 0)) = false then true
  else if word ∈ st.ignores then true
  else st.dicts.any (fun d => dictCheck baseChk d word)

/-- C4: with the provider unavailable (`have_enchant` false) or no
dictionaries loaded, `spell_check_word` reports every word as correct
— empty and non-alphabetic strings included — and never signals an
error (it totally always returns a verdict). -/
theorem C4_spell_check_fail_open (alpha : Char → Bool)
    (baseChk : List Char → List Char → Bool) (st : SpellSt)
    (word : List Char)
    (h : st.have_enchant = false ∨ st.dicts = []) :
    spell_check_word alpha baseChk st word = true := by
  unfold spell_check_word
  rw [if_pos]
  rcases h with h | h
  · exact Or.inl h
  · exact Or.inr (Or.inl h)

/-- C4 witness: the unavailable state reports the empty word, a
non-alphabetic word and an ordinary word as correct. -/
theorem C4_witness :
    (SpellSt.have_enchant ⟨false, none, [], []⟩ = false ∨
      SpellSt.dicts ⟨false, none, [], []⟩ = []) ∧
    spell_check_word (fun _ => false) (fun _ _ => false)
      ⟨false, none, [], []⟩ [] = true ∧
    spell_check_word (fun _ => false) (fun _ _ => false)
      ⟨false, none, [], []⟩ (String.toList "1234!") = true ∧
    spell_check_word (fun _ => false) (fun _ _ => false)
      ⟨false, none, [], []⟩ (String.toList "hello") = true :=
  ⟨Or.inl rfl,
   C4_spell_check_fail_open _ _ _ _ (Or.inl rfl),
   C4_spell_check_fail_open _ _ _ _ (Or.inl rfl),
   C4_spell_check_fail_open _ _ _ _ (Or.inl rfl)⟩

/-! ### spell_get_suggestions (fe-fltk.cpp:237-266) -/

/-- The inner loop over one dictionary's candidates:
`for (i = 0; i < n_suggs && result.size () < 10; i++)` with the
linear-scan duplicate check. -/
def addSuggs (acc : List (List Char)) : List (List Char) → List (List Char)
  | [] => acc
  | s :: rest =>
    if acc.length < 10 then
      if s ∈ acc then addSuggs acc rest else addSuggs (acc ++ [s]) rest
    else acc

def spell_get_suggestions (suggest : EnchantDictM → List Char → List (List Char))
    (st : SpellSt) (word : List Char) : List (List Char) :=
  if st.have_enchant = false ∨ st.dicts = [] ∨ word = [] then []
  else st.dicts.foldl (fun acc d => addSuggs acc (suggest d word)) []

theorem addSuggs_le_ten (l : List (List Char)) :
    ∀ acc : List (List Char), acc.length ≤ 10 → (addSuggs acc l).length ≤ 10 := by
  induction l with
  | nil => intro acc h; exact h
  | cons s rest ih =>
    intro acc h
    unfold addSuggs
    split
    · split
      · exact ih acc h
      · exact ih _ (by simp only [List.length_append, List.length_singleton]; omega)
    · exact h

theorem addSuggs_nodup (l : List (List Char)) :
    ∀ acc : List (List Char), acc.Nodup → (addSuggs acc l).Nodup := by
  induction l with
  | nil => intro acc h; exact h
  | cons s rest ih =>
    intro acc h
    unfold addSuggs
    split
    · split
      · exact ih acc h
      · rename_i hmem
        exact ih _ (by rw [← List.concat_eq_append]; exact List.Nodup.concat hmem h)
    · exact h

theorem foldl_addSuggs_le_ten (ds : List EnchantDictM)
    (f : EnchantDictM → List (List Char)) :
    ∀ acc : List (List Char), acc.length ≤ 10 →
      (ds.foldl (fun acc d => addSuggs acc (f d)) acc).length ≤ 10 := by
  induction ds with
  | nil => intro acc h; exact h
  | cons d rest ih =>
    intro acc h
    exact ih _ (addSuggs_le_ten _ acc h)

theorem foldl_addSuggs_nodup (ds : List EnchantDictM)
    (f : EnchantDictM → List (List Char)) :
    ∀ acc : List (List Char), acc.Nodup →
      (ds.foldl (fun acc d => addSuggs acc (f d)) acc).Nodup := by
  induction ds with
  | nil => intro acc h; exact h
  | cons d rest ih =>
    intro acc h
    exact ih _ (addSuggs_nodup _ acc h)

theorem addSuggs_extends (l : List (List Char)) :
    ∀ acc : List (List Char),
      ∃ extra, addSuggs acc l = acc ++ extra ∧ extra.Sublist l := by
  induction l with
  | nil => intro acc; exact ⟨[], by simp [addSuggs]⟩
  | cons s rest ih =>
    intro acc
    unfold addSuggs
    split
    · split
      · obtain ⟨e, he, hs⟩ := ih acc
        exact ⟨e, he, hs.cons s⟩
      · obtain ⟨e, he, hs⟩ := ih (acc ++ [s])
        exact ⟨s :: e, by simp [he], hs.cons₂ s⟩
    · exact ⟨[], by simp⟩

theorem foldl_addSuggs_extends (ds : List EnchantDictM)
    (f : EnchantDictM → List (List Char)) :
    ∀ acc : List (List Char),
      ∃ extra, ds.foldl (fun acc d => addSuggs acc (f d)) acc = acc ++ extra ∧
        extra.Sublist (ds.map f).flatten := by
  induction ds with
  | nil => intro acc; exact ⟨[], by simp⟩
  | cons d rest ih =>
    intro acc
    obtain ⟨e1, he1, hs1⟩ := addSuggs_extends (f d) acc
    obtain ⟨e2, he2, hs2⟩ := ih (addSuggs acc (f d))
    refine ⟨e1 ++ e2, ?_, ?_⟩
    · rw [List.foldl_cons, he2, he1, List.append_assoc]
    · simpa using hs1.append hs2

/-- C7: for every word and every state of the loaded dictionaries, the
suggestion list has length at most 10, contains no duplicate string,
and is an order-preserving selection (a sublist) of the dictionaries'
candidate lists concatenated in dictionary order. -/
theorem C7_suggestions_bounded_nodup
    (suggest : EnchantDictM → List Char → List (List Char))
    (st : SpellSt) (word : List Char) :
    (spell_get_suggestions suggest st word).length ≤ 10 ∧
    (spell_get_suggestions suggest st word).Nodup ∧
    (spell_get_suggestions suggest st word).Sublist
      ((st.dicts.map (fun d => suggest d word)).flatten) := by
  unfold spell_get_suggestions
  split
  · simp
  · refine ⟨foldl_addSuggs_le_ten _ _ [] (by simp),
            foldl_addSuggs_nodup _ _ [] (by simp), ?_⟩
    obtain ⟨e, he, hs⟩ := foldl_addSuggs_extends st.dicts (fun d => suggest d word) []
    rw [he]
    simpa using hs

/-! ### spell_init_broker (fe-fltk.cpp:149-190)

`g_strsplit_set (langs, ", \t", -1)` splits on comma, space and tab,
producing empty fields between adjacent delimiters; the loop skips
empty tokens (`!lang || !*lang`).  `brokerOk` models whether
`enchant_broker_init` succeeds, `avail` whether
`enchant_broker_request_dict` succeeds for a tag.  Besides the new
state the model returns the trace of language tags that were requested
from the broker, so the fallback behaviour is observable. -/

def isLangDelim (c : Char) : Bool := c == ',' || c == ' ' || c == '\t'

def splitDelims : List Char → List (List Char)
  | [] => [[]]
  | c :: cs =>
    match splitDelims cs with
    | [] => [[]]
    | t :: ts => if isLangDelim c then [] :: t :: ts else (c :: t) :: ts

/-- The fixed domain terms seeded into a dictionary loaded from the
configured language list (fe-fltk.cpp:173-176). -/
def seedWords : List (List Char) :=
  [String.toList "HexChat", String.toList "FlexChat", String.toList "IRC"]

def spell_init_broker (brokerOk : Bool) (avail : List Char → Bool)
    (langs : List Char) (st : SpellSt) : SpellSt × List (List Char) :=
  if st.have_enchant = false ∨ st.broker ≠ none then (st, [])
  else if brokerOk = false then (st, [])
  else
    let toks := (splitDelims langs).filter (fun t => !t.isEmpty)
    let fromList := toks.filterMap (fun t =>
      if avail t then some ({ lang := t, sessionVocab := seedWords } : EnchantDictM)
      else none)
    let dicts := if fromList = [] then
        (if avail (String.toList "en") then
          [({ lang := String.toList "en", sessionVocab := [] } : EnchantDictM)]
        else [])
      else fromList
    let reqs := toks ++ (if fromList = [] then [String.toList "en"] else [])
    ({ st with broker := some (), dicts := st.dicts ++ dicts }, reqs)

/-- Language availability oracle granting only "en". -/
def availEn : List Char → Bool := fun t => t == String.toList "en"

/-- A fresh spell state with enchant present and nothing initialised. -/
def spellSt0 : SpellSt := ⟨true, none, [], []⟩

/-- C5 counterexample: with an empty configured language list (zero
dictionaries resolve) and "en" available, the fallback dictionary is
loaded but its session vocabulary is empty: it is NOT seeded with the
domain terms, contradicting the claim that every successfully loaded
dictionary is seeded. -/
theorem C5_counterexample :
    (spell_init_broker true availEn [] spellSt0).1.dicts ≠ [] ∧
    ¬ (∀ d ∈ (spell_init_broker true availEn [] spellSt0).1.dicts,
        String.toList "HexChat" ∈ d.sessionVocab) := by
  decide

/-- C5 amended: when zero dictionaries resolve from the configured
language list, exactly one fallback request for "en" is issued (the
request trace is the configured tokens followed by exactly one "en"),
and otherwise no fallback request is made; every dictionary loaded
from the configured list is seeded with the fixed domain terms, while
a dictionary loaded through the "en" fallback is not seeded (its
session vocabulary starts empty). -/
theorem C5_amended_init_broker (avail : List Char → Bool)
    (langs : List Char) (st : SpellSt)
    (h1 : st.have_enchant = true) (h2 : st.broker = none)
    (h3 : st.dicts = []) :
    ((∀ t ∈ (splitDelims langs).filter (fun t => !t.isEmpty), avail t = false) →
      (spell_init_broker true avail langs st).2
        = (splitDelims langs).filter (fun t => !t.isEmpty) ++ [String.toList "en"] ∧
      (∀ d ∈ (spell_init_broker true avail langs st).1.dicts,
        d.lang = String.toList "en" ∧ d.sessionVocab = [])) ∧
    ((∃ t ∈ (splitDelims langs).filter (fun t => !t.isEmpty), avail t = true) →
      (spell_init_broker true avail langs st).2
        = (splitDelims langs).filter (fun t => !t.isEmpty) ∧
      (∀ d ∈ (spell_init_broker true avail langs st).1.dicts,
        d.sessionVocab = seedWords)) := by
  have hguard : ¬ (st.have_enchant = false ∨ st.broker ≠ none) := by
    rw [h1, h2]; simp
  have hnil : (∀ t ∈ (splitDelims langs).filter (fun t => !t.isEmpty),
      avail t = false) ↔ ((splitDelims langs).filter (fun t => !t.isEmpty)).filterMap
        (fun t => if avail t then
            some ({ lang := t, sessionVocab := seedWords } : EnchantDictM)
          else none) = [] := by
    rw [List.filterMap_eq_nil_iff]
    constructor
    · intro h t ht
      rw [if_neg]
      simp [h t ht]
    · intro h t ht
      have := h t ht
      by_cases ha : avail t = true
      · rw [if_pos ha] at this; simp at this
      · simpa using ha
  constructor
  · intro hall
    have hf := hnil.mp hall
    unfold spell_init_broker
    rw [if_neg hguard, if_neg (by simp)]
    simp only [hf, if_pos trivial, h3]
    constructor
    · simp
    · intro d hd
      simp only [List.nil_append] at hd
      by_cases he : avail (String.toList "en") = true
      · rw [if_pos he] at hd
        simp at hd
        simp [hd]
      · rw [if_neg he] at hd
        simp at hd
  · intro hex
    have hf : ((splitDelims langs).filter (fun t => !t.isEmpty)).filterMap
        (fun t => if avail t then
            some ({ lang := t, sessionVocab := seedWords } : EnchantDictM)
          else none) ≠ [] := by
      intro hcontra
      obtain ⟨t, ht, ha⟩ := hex
      have := (hnil.mpr hcontra) t ht
      rw [ha] at this
      simp at this
    unfold spell_init_broker
    rw [if_neg hguard, if_neg (by simp)]
    simp only [if_neg hf, h3]
    constructor
    · simp
    · intro d hd
      simp only [List.nil_append, List.mem_filterMap] at hd
      obtain ⟨t, _, hsome⟩ := hd
      by_cases ha : avail t = true
      · rw [if_pos ha] at hsome
        cases hsome
        rfl
      · rw [if_neg ha] at hsome
        simp at hsome

/-- C5 amended, witness: with configured list "de fr" and only "de"
resolving, no fallback is requested and the loaded dictionary is
seeded with the domain terms. -/
theorem C5_amended_witness :
    (spellSt0.have_enchant = true ∧ spellSt0.broker = none ∧ spellSt0.dicts = [] ∧
      ∃ t ∈ (splitDelims (String.toList "de fr")).filter (fun t => !t.isEmpty),
        (fun u => u == String.toList "de") t = true) ∧
    ((spell_init_broker true (fun u => u == String.toList "de")
        (String.toList "de fr") spellSt0).2
      = (splitDelims (String.toList "de fr")).filter (fun t => !t.isEmpty) ∧
     (∀ d ∈ (spell_init_broker true (fun u => u == String.toList "de")
        (String.toList "de fr") spellSt0).1.dicts,
        d.sessionVocab = seedWords)) :=
  ⟨⟨rfl, rfl, rfl, by decide⟩,
   (C5_amended_init_broker (fun u => u == String.toList "de")
     (String.toList "de fr") spellSt0 rfl rfl rfl).2 (by decide)⟩

/-! ### spell_cleanup (fe-fltk.cpp:192-204) and
spell_ignore_word (fe-fltk.cpp:278-290) -/

def spell_cleanup (st : SpellSt) : SpellSt :=
  let st1 := if st.broker ≠ none then { st with dicts := [], broker := none } else st
  { st1 with ignores := [] }

def spell_ignore_word (w : List Char) (st : SpellSt) : SpellSt :=
  if w = [] then st
  else
    let st1 := { st with
      ignores := if w ∈ st.ignores then st.ignores else w :: st.ignores }
    let newDicts := st1.dicts.map
      (fun d => { d with sessionVocab := d.sessionVocab ++ [w] })
    if st1.have_enchant = true ∧ st1.dicts ≠ [] then { st1 with dicts := newDicts }
    else st1

/-- C10: `spell_cleanup` empties the session ignore set (always), it
releases the dictionary handles and the broker (when a broker was
live), and a teardown erases every trace of a prior `ignore_word`: the
state after cleanup of an ignore equals the state after plain cleanup,
so after any teardown-then-reinitialize cycle every previously ignored
word is checked exactly as if it had never been ignored.  (The
hypothesis reflects the program's invariant that dictionaries only
exist under a live broker.) -/
theorem C10_cleanup_clears_ignores (st : SpellSt) (w : List Char)
    (h : st.dicts ≠ [] → st.broker ≠ none) :
    (spell_cleanup st).ignores = [] ∧
    (st.broker ≠ none →
      (spell_cleanup st).dicts = [] ∧ (spell_cleanup st).broker = none) ∧
    spell_cleanup (spell_ignore_word w st) = spell_cleanup st ∧
    (∀ (brokerOk : Bool) (avail : List Char → Bool) (langs : List Char)
       (alpha : Char → Bool) (baseChk : List Char → List Char → Bool)
       (v : List Char),
      spell_check_word alpha baseChk
          (spell_init_broker brokerOk avail langs
            (spell_cleanup (spell_ignore_word w st))).1 v
        = spell_check_word alpha baseChk
          (spell_init_broker brokerOk avail langs (spell_cleanup st)).1 v) := by
  have key : spell_cleanup (spell_ignore_word w st) = spell_cleanup st := by
    obtain ⟨he, hb, hd, hi⟩ := st
    by_cases hw : w = []
    · rw [spell_ignore_word, if_pos hw]
    · cases hb with
      | none =>
        have hd0 : hd = [] := by
          by_contra hcon
          exact (h hcon) rfl
        subst hd0
        simp [spell_ignore_word, spell_cleanup, hw]
      | some u =>
        by_cases hc : he = true ∧ hd ≠ []
        · simp [spell_ignore_word, spell_cleanup, hw, hc]
        · simp only [spell_ignore_word, if_neg hw]
          rw [if_neg hc]
          simp [spell_cleanup]
  refine ⟨?_, ?_, key, ?_⟩
  · simp [spell_cleanup]
  · intro hb
    simp [spell_cleanup, if_pos hb]
  · intro brokerOk avail langs alpha baseChk v
    rw [key]

/-- A live spell state: enchant found, live broker, one dictionary,
one ignored word. -/
def spellStW : SpellSt :=
  ⟨true, some (), [⟨String.toList "en", []⟩], [String.toList "foo"]⟩

/-- C10 witness: a live state with one dictionary, a live broker and a
previously ignored word satisfies the hypothesis, and teardown of it
behaves as stated. -/
theorem C10_witness :
    (spellStW.dicts ≠ [] → spellStW.broker ≠ none) ∧
    ((spell_cleanup spellStW).ignores = [] ∧
     (spellStW.broker ≠ none →
       (spell_cleanup spellStW).dicts = [] ∧
       (spell_cleanup spellStW).broker = none) ∧
     spell_cleanup (spell_ignore_word (String.toList "Flexchat") spellStW)
       = spell_cleanup spellStW ∧
     (∀ (brokerOk : Bool) (avail : List Char → Bool) (langs : List Char)
        (alpha : Char → Bool) (baseChk : List Char → List Char → Bool)
        (v : List Char),
       spell_check_word alpha baseChk
           (spell_init_broker brokerOk avail langs
             (spell_cleanup (spell_ignore_word (String.toList "Flexchat") spellStW))).1 v
         = spell_check_word alpha baseChk
           (spell_init_broker brokerOk avail langs (spell_cleanup spellStW)).1 v)) :=
  ⟨by decide,
   C10_cleanup_clears_ignores spellStW (String.toList "Flexchat") (by decide)⟩

/-! ### spell_find_words (fe-fltk.cpp:292-338)

The C loop walks UTF-8 codepoints with `g_utf8_next_char` and tests
them with `g_unichar_isalpha`; the embedding works at codepoint
granularity: the text is the list of its codepoints, span offsets are
codepoint indices, and the external `g_unichar_isalpha` is the oracle
`alpha`.  A word starts at an alphabetic codepoint and extends through
codepoints that are alphabetic or the apostrophe (39) or the hyphen.
`chk` is `spell_check_word` applied to the current spell state. -/

structure WordSpan where
  startPos : Nat
  endPos : Nat
  misspelled : Bool
  deriving Repr, DecidableEq

def wordChar (alpha : Char → Bool) (c : Char) : Bool :=
  alpha c || c == Char.ofNat 39 || c == '-'

def findWords (alpha : Char → Bool) (chk : List Char → Bool) :
    Nat → List Char → Nat → List WordSpan
  | 0, _, _ => []
  | fuel + 1, t, pos =>
    match t.dropWhile (fun c => !alpha c) with
    | [] => []
    | c :: rest =>
      let skipped := c :: rest
      let pos1 := pos + (t.length - skipped.length)
      let w := skipped.takeWhile (wordChar alpha)
      let rest2 := skipped.dropWhile (wordChar alpha)
      { startPos := pos1, endPos := pos1 + w.length, misspelled := !chk w }
        :: findWords alpha chk fuel rest2 (pos1 + w.length)

def spell_find_words (alpha : Char → Bool)
    (baseChk : List Char → List Char → Bool) (st : SpellSt)
    (text : List Char) : List WordSpan :=
  findWords alpha (fun w => spell_check_word alpha baseChk st w)
    text.length text 0

theorem findWords_nil (alpha : Char → Bool) (chk : List Char → Bool)
    (fuel : Nat) (pos : Nat) : findWords alpha chk fuel [] pos = [] := by
  cases fuel <;> rfl

theorem dropWhile_head_false (p : Char → Bool) :
    ∀ (l : List Char) (c : Char) (r : List Char),
      l.dropWhile p = c :: r → p c = false := by
  intro l
  induction l with
  | nil => intro c r h; simp at h
  | cons a as ih =>
    intro c r h
    rw [List.dropWhile_cons] at h
    split at h
    · exact ih c r h
    · cases h
      rename_i hpa
      simpa using hpa

/-- The number of codepoints skipped before the next word start. -/
theorem skip_len_eq (alpha : Char → Bool) (t : List Char) :
    t.length - (t.dropWhile (fun c => !alpha c)).length
      = (t.takeWhile (fun c => !alpha c)).length := by
  have h := List.takeWhile_append_dropWhile (p := fun c => !alpha c) (l := t)
  have := congrArg List.length h
  simp only [List.length_append] at this
  omega

theorem drop_eq_dropWhile (p : Char → Bool) (t : List Char) :
    t.drop (t.takeWhile p).length = t.dropWhile p := by
  induction t with
  | nil => rfl
  | cons a as ih =>
    rw [List.takeWhile_cons, List.dropWhile_cons]
    split
    · simpa using ih
    · rfl

/-- Core induction for spell_find_words: with `full.drop pos = t`, the
spans produced from suffix `t` at absolute offset `pos` (i) start at
or after `pos` plus the skipped run, have positive extent, and end
within `pos + |t|`; (ii) are strictly ordered and disjoint; (iii)
start at an alphabetic codepoint of `full`; (iv) contain only word
codepoints of `full`. -/
theorem findWords_spec (alpha : Char → Bool) (chk : List Char → Bool) :
    ∀ (fuel : Nat) (t : List Char) (pos : Nat) (full : List Char),
      full.drop pos = t →
      (∀ sp ∈ findWords alpha chk fuel t pos,
        pos + (t.length - (t.dropWhile (fun c => !alpha c)).length) ≤ sp.startPos ∧
        sp.startPos < sp.endPos ∧ sp.endPos ≤ pos + t.length) ∧
      List.Chain' (fun a b => a.endPos < b.startPos)
        (findWords alpha chk fuel t pos) ∧
      (∀ sp ∈ findWords alpha chk fuel t pos,
        ∃ ch, full.get? sp.startPos = some ch ∧ alpha ch = true) ∧
      (∀ sp ∈ findWords alpha chk fuel t pos,
        ∀ i, sp.startPos ≤ i → i < sp.endPos →
          ∃ ch, full.get? i = some ch ∧ wordChar alpha ch = true) := by
  intro fuel
  induction fuel with
  | zero =>
    intro t pos full _
    simp [findWords]
  | succ n ih =>
    intro t pos full hfull
    cases hsk : t.dropWhile (fun c => !alpha c) with
    | nil =>
      constructor
      · intro sp hsp
        simp only [findWords, hsk] at hsp
        simp at hsp
      constructor
      · simp only [findWords, hsk]
        exact List.chain'_nil
      constructor
      · intro sp hsp
        simp only [findWords, hsk] at hsp
        simp at hsp
      · intro sp hsp
        simp only [findWords, hsk] at hsp
        simp at hsp
    | cons c rest =>
      -- abbreviations mirroring the definition
      have halpha : alpha c = true := by
        have := dropWhile_head_false (fun c => !alpha c) t c rest hsk
        simpa using this
      have hk : t.length - (c :: rest).length = (t.takeWhile (fun c => !alpha c)).length := by
        rw [← hsk]
        exact skip_len_eq alpha t
      have hdropk : t.drop (t.takeWhile (fun c => !alpha c)).length = c :: rest := by
        rw [drop_eq_dropWhile, hsk]
      have hlen_split : (t.takeWhile (fun c => !alpha c)).length + (c :: rest).length
          = t.length := by
        have h := List.takeWhile_append_dropWhile (p := fun c => !alpha c) (l := t)
        rw [hsk] at h
        have := congrArg List.length h
        simpa [List.length_append] using this
      set k := (t.takeWhile (fun c => !alpha c)).length with hkdef
      have hfull1 : full.drop (pos + k) = c :: rest := by
        rw [← List.drop_drop, hfull, hdropk]
      set w := (c :: rest).takeWhile (wordChar alpha) with hwdef
      set rest2 := (c :: rest).dropWhile (wordChar alpha) with hrdef
      have hw_cons : w = c :: rest.takeWhile (wordChar alpha) := by
        rw [hwdef, List.takeWhile_cons,
          if_pos (by simp [wordChar, halpha])]
      have hw_len : 1 ≤ w.length := by rw [hw_cons]; simp
      have hwr : w ++ rest2 = c :: rest :=
        List.takeWhile_append_dropWhile (p := wordChar alpha) (l := c :: rest)
      have hwr_len : w.length + rest2.length = (c :: rest).length := by
        have := congrArg List.length hwr
        simpa [List.length_append] using this
      have hfull2 : full.drop (pos + k + w.length) = rest2 := by
        rw [← List.drop_drop, hfull1, ← hwr]
        exact List.drop_left _ _
      -- the word's codepoints, looked up in `full`
      have hchar : ∀ j, j < w.length →
          ∃ ch, full.get? (pos + k + j) = some ch ∧ wordChar alpha ch = true := by
        intro j hj
        have hget : full.get? (pos + k + j) = w.get? j := by
          rw [← List.get?_drop, hfull1, ← hwr, List.get?_append hj]
        cases hww : w.get? j with
        | none =>
          rw [List.get?_eq_none] at hww
          omega
        | some ch =>
          refine ⟨ch, by rw [hget, hww], ?_⟩
          have hmemw : ch ∈ w := List.get?_mem hww
          rw [hwdef] at hmemw
          exact List.mem_takeWhile_imp hmemw
      have hstart : ∃ ch, full.get? (pos + k) = some ch ∧ alpha ch = true := by
        refine ⟨c, ?_, halpha⟩
        have h0 : full.get? (pos + k + 0) = (c :: rest).get? 0 := by
          rw [← List.get?_drop, hfull1]
        simpa using h0
      -- unfold one step of findWords
      have hunfold : findWords alpha chk (n + 1) t pos
          = { startPos := pos + k, endPos := pos + k + w.length,
              misspelled := !chk w }
            :: findWords alpha chk n rest2 (pos + k + w.length) := by
        simp only [findWords, hsk]
        rw [hk, ← hwdef, ← hrdef]
      obtain ⟨ihA, ihB, ihC, ihD⟩ := ih rest2 (pos + k + w.length) full hfull2
      constructor
      · intro sp hsp
        rw [hunfold] at hsp
        rcases List.mem_cons.mp hsp with h | h
        · subst h
          dsimp only
          exact ⟨by omega, by omega, by omega⟩
        · obtain ⟨h1, h2, h3⟩ := ihA sp h
          exact ⟨by omega, h2, by omega⟩
      constructor
      · rw [hunfold]
        rw [List.chain'_cons']
        constructor
        · intro y hy
          have hymem : y ∈ findWords alpha chk n rest2 (pos + k + w.length) :=
            List.mem_of_mem_head? hy
          obtain ⟨h1, _, _⟩ := ihA y hymem
          -- rest2 is nonempty here and starts with a non-word codepoint
          cases hr2 : rest2 with
          | nil =>
            rw [hr2, findWords_nil] at hymem
            simp at hymem
          | cons c2 r2 =>
            have hc2 : wordChar alpha c2 = false := by
              apply dropWhile_head_false (wordChar alpha) (c :: rest) c2 r2
              rw [← hrdef, hr2]
            have hc2a : alpha c2 = false := by
              by_contra hcon
              simp only [wordChar, Bool.or_eq_false_iff] at hc2
              have := hc2.1.1
              simp only [Bool.not_eq_true] at hcon
              rw [this] at hcon
              exact hcon rfl
            have hskip2 : 1 ≤ rest2.length - (rest2.dropWhile (fun c => !alpha c)).length := by
              rw [skip_len_eq, hr2, List.takeWhile_cons, if_pos (by simp [hc2a])]
              simp
            dsimp only
            omega
        · exact ihB
      constructor
      · intro sp hsp
        rw [hunfold] at hsp
        rcases List.mem_cons.mp hsp with h | h
        · subst h
          exact hstart
        · exact ihC sp h
      · intro sp hsp i hi1 hi2
        rw [hunfold] at hsp
        rcases List.mem_cons.mp hsp with h | h
        · subst h
          simp only [] at hi1 hi2
          obtain ⟨ch, hch, hwc⟩ := hchar (i - (pos + k)) (by omega)
          refine ⟨ch, ?_, hwc⟩
          rw [← hch]
          congr 1
          omega
        · exact ihD sp h i hi1 hi2

/-- C9: for every text (and any alphabet oracle and spell state), the
word tokenizer returns spans that are strictly increasing and
disjoint, each of positive extent ending within the text, each
beginning at an alphabetic codepoint, containing only alphabetic,
apostrophe, or hyphen codepoints (so a span can never begin with
apostrophe or hyphen where those are not alphabetic), and re-running
it on the same text yields exactly the same spans. -/
theorem C9_spell_find_words (alpha : Char → Bool)
    (baseChk : List Char → List Char → Bool) (st : SpellSt)
    (text : List Char) :
    List.Chain' (fun a b => a.endPos < b.startPos)
      (spell_find_words alpha baseChk st text) ∧
    (∀ sp ∈ spell_find_words alpha baseChk st text,
      sp.startPos < sp.endPos ∧ sp.endPos ≤ text.length) ∧
    (∀ sp ∈ spell_find_words alpha baseChk st text,
      ∃ ch, text.get? sp.startPos = some ch ∧ alpha ch = true) ∧
    (∀ sp ∈ spell_find_words alpha baseChk st text,
      ∀ i, sp.startPos ≤ i → i < sp.endPos →
        ∃ ch, text.get? i = some ch ∧
          (alpha ch = true ∨ ch = Char.ofNat 39 ∨ ch = '-')) ∧
    spell_find_words alpha baseChk st text
      = spell_find_words alpha baseChk st text := by
  obtain ⟨hA, hB, hC, hD⟩ := findWords_spec alpha
    (fun w => spell_check_word alpha baseChk st w)
    text.length text 0 text (by simp)
  refine ⟨hB, ?_, hC, ?_, rfl⟩
  · intro sp hsp
    obtain ⟨_, h2, h3⟩ := hA sp hsp
    exact ⟨h2, by omega⟩
  · intro sp hsp i hi1 hi2
    obtain ⟨ch, hch, hwc⟩ := hD sp hsp i hi1 hi2
    refine ⟨ch, hch, ?_⟩
    simp only [wordChar, Bool.or_eq_true, beq_iff_eq] at hwc
    tauto

/-- A concrete stand-in for the external `g_unichar_isalpha` oracle,
for witness tests: ASCII letters. -/
def asciiAlpha (c : Char) : Bool :=
  decide (65 ≤ c.toNat ∧ c.toNat ≤ 90) || decide (97 ≤ c.toNat ∧ c.toNat ≤ 122)

/-- C9 witness: the tokenizer's guarantees instantiated on a concrete
text, with the span membership and index hypotheses discharged on the
first word of "ab cd". -/
theorem C9_witness :
    (∃ ch, (String.toList "ab cd").get? 0 = some ch ∧ asciiAlpha ch = true) ∧
    (∃ ch, (String.toList "ab cd").get? 1 = some ch ∧
      (asciiAlpha ch = true ∨ ch = Char.ofNat 39 ∨ ch = '-')) := by
  have h := C9_spell_find_words asciiAlpha (fun _ _ => false) spellSt0
    (String.toList "ab cd")
  exact ⟨h.2.2.1 ⟨0, 2, false⟩ (by decide),
         h.2.2.2.1 ⟨0, 2, false⟩ (by decide) 1 (by decide) (by decide)⟩

/-! ## The color palette store (fe-fltk.cpp:562-721)

`palette_colors` is an array indexed 0..MAX_COL (= 41).  `palette_save`
writes one line `color_<n> = <r> <g> <b>` per index, with UI-role
indices 32..41 written as `256 + (i - 32)`; `palette_load` parses each
line with `sscanf (line, "color_%d = %d %d %d", ...)`, remaps indices
≥ 256 to `32 + (n - 256)`, bounds-checks, and stores the three values
cast to unsigned char.  The store is modelled as a total function
`Nat → Nat × Nat × Nat` (only indices 0..41 are meaningful), a file as
a list of lines, and the `sscanf` format at character level. -/

/-- Digit consumption of `%d`, with accumulator. -/
def readDigitsAcc : List Char → Nat → Nat × List Char
  | [], acc => (acc, [])
  | c :: cs, acc =>
    if isAsciiDigitB c then readDigitsAcc cs (acc * 10 + (c.toNat - 48))
    else (acc, c :: cs)

/-- The `%d` conversion of sscanf: skip whitespace, optional sign, at least one
digit; fails (conversion error, sscanf stops) otherwise. -/
def readInt (l0 : List Char) : Option (Int × List Char) :=
  match l0.dropWhile isAsciiSpaceB with
  | [] => none
  | c :: rest =>
    if c == '-' then
      match rest with
      | [] => none
      | d :: _ =>
        if isAsciiDigitB d then
          let p := readDigitsAcc rest 0
          some (-(p.1 : Int), p.2)
        else none
    else if c == '+' then
      match rest with
      | [] => none
      | d :: _ =>
        if isAsciiDigitB d then
          let p := readDigitsAcc rest 0
          some ((p.1 : Int), p.2)
        else none
    else if isAsciiDigitB c then
      let p := readDigitsAcc (c :: rest) 0
      some ((p.1 : Int), p.2)
    else none

/-- Literal (non-whitespace) format characters must match exactly. -/
def litMatch : List Char → List Char → Option (List Char)
  | [], l => some l
  | _ :: _, [] => none
  | a :: as, b :: bs => if a == b then litMatch as bs else none

/-- Models `sscanf (line, "color_%d = %d %d %d", &idx, &r, &g, &b) == 4`. -/
def parseColorLine (l : List Char) : Option (Int × Int × Int × Int) :=
  match litMatch (String.toList "color_") l with
  | none => none
  | some l1 =>
    match readInt l1 with
    | none => none
    | some (idx, l2) =>
      match l2.dropWhile isAsciiSpaceB with
      | [] => none
      | c :: l3 =>
        if c == '=' then
          match readInt l3 with
          | none => none
          | some (r, l4) =>
            match readInt l4 with
            | none => none
            | some (g, l5) =>
              match readInt l5 with
              | none => none
              | some (b, _) => some (idx, r, g, b)
        else none

/-- One decimal digit as printed by printf. -/
def digitChar (d : Nat) : Char := Char.ofNat (48 + d % 10)

/-- The decimal rendering of a natural, as `fprintf %d` prints it. -/
def natRepr (n : Nat) : List Char :=
  if n < 10 then [digitChar n]
  else natRepr (n / 10) ++ [digitChar (n % 10)]
  decreasing_by omega

/-- One line written by palette_save:
`fprintf (fp, "color_%d = %d %d %d\n", n, r, g, b)`. -/
def renderColorLine (n r g b : Nat) : List Char :=
  String.toList "color_" ++ natRepr n ++ String.toList " = " ++ natRepr r ++
    [' '] ++ natRepr g ++ [' '] ++ natRepr b ++ ['\n']

/-- The effect of one fgets'd line on the store (fe-fltk.cpp:670-685):
parse, remap 256+, bounds-check 0..MAX_COL, store with the
unsigned-char casts; a line that does not parse leaves the store
untouched. -/
def applyLine (s : Nat → Nat × Nat × Nat) (l : List Char) :
    Nat → Nat × Nat × Nat :=
  match parseColorLine l with
  | none => s
  | some (idx, r, g, b) =>
    let idx2 : Int := if 256 ≤ idx then 32 + (idx - 256) else idx
    if 0 ≤ idx2 ∧ idx2 ≤ 41 then
      fun j => if j = idx2.toNat then
          ((r % 256).toNat, (g % 256).toNat, (b % 256).toNat)
        else s j
    else s

def palette_load (lines : List (List Char)) (s : Nat → Nat × Nat × Nat) :
    Nat → Nat × Nat × Nat :=
  lines.foldl applyLine s

/-- palette_save (fe-fltk.cpp:689-714): indices 0..31 directly, then
indices 32..41 as 256 + (i − 32). -/
def palette_save (s : Nat → Nat × Nat × Nat) : List (List Char) :=
  (List.range 32).map (fun i => renderColorLine i (s i).1 (s i).2.1 (s i).2.2) ++
  (List.range 10).map (fun i =>
    renderColorLine (256 + i) (s (32 + i)).1 (s (32 + i)).2.1 (s (32 + i)).2.2)

/-! ### Parse/render round trip -/

theorem char_ofNat_toNat (e : Nat) (he : e < 10) :
    (Char.ofNat (48 + e)).toNat = 48 + e := by
  interval_cases e <;> decide

theorem digitChar_toNat (d : Nat) : (digitChar d).toNat = 48 + d % 10 :=
  char_ofNat_toNat (d % 10) (Nat.mod_lt _ (by norm_num))

theorem digitChar_isDigit (d : Nat) : isAsciiDigitB (digitChar d) = true := by
  unfold isAsciiDigitB
  rw [digitChar_toNat]
  have := Nat.mod_lt d (show 0 < 10 by norm_num)
  simp only [decide_eq_true_eq]
  omega

theorem natRepr_digits (n : Nat) :
    ∀ c ∈ natRepr n, isAsciiDigitB c = true := by
  induction n using natRepr.induct with
  | case1 n h =>
    intro c hc
    rw [natRepr, if_pos h] at hc
    simp at hc
    subst hc
    exact digitChar_isDigit n
  | case2 n h ih =>
    intro c hc
    rw [natRepr, if_neg h] at hc
    rcases List.mem_append.mp hc with hm | hm
    · exact ih c hm
    · simp at hm
      subst hm
      exact digitChar_isDigit (n % 10)

theorem natRepr_ne_nil (n : Nat) : natRepr n ≠ [] := by
  induction n using natRepr.induct with
  | case1 n h => rw [natRepr, if_pos h]; simp
  | case2 n h ih => rw [natRepr, if_neg h]; simp

theorem digit_not_space (c : Char) (h : isAsciiDigitB c = true) :
    isAsciiSpaceB c = false := by
  unfold isAsciiDigitB at h
  unfold isAsciiSpaceB
  simp only [decide_eq_true_eq] at h
  simp only [decide_eq_false_iff_not]
  omega

theorem digit_not_dash (c : Char) (h : isAsciiDigitB c = true) :
    ((c == '-') = false ∧ (c == '+') = false) := by
  unfold isAsciiDigitB at h
  simp only [decide_eq_true_eq] at h
  constructor <;>
    · rw [beq_eq_false_iff_ne]
      intro hcon
      subst hcon
      simp at h

theorem readDigitsAcc_append (n : Nat) :
    ∀ (rest : List Char) (acc : Nat),
      readDigitsAcc (natRepr n ++ rest) acc
        = readDigitsAcc rest (acc * 10 ^ (natRepr n).length + n) := by
  induction n using natRepr.induct with
  | case1 n h =>
    intro rest acc
    rw [natRepr, if_pos h]
    simp only [List.cons_append, List.nil_append, readDigitsAcc,
      digitChar_isDigit n, if_true, List.length_singleton, pow_one]
    rw [digitChar_toNat]
    congr 1
    omega
  | case2 n h ih =>
    intro rest acc
    rw [natRepr, if_neg h]
    rw [List.append_assoc]
    rw [ih]
    simp only [List.cons_append, List.nil_append, readDigitsAcc,
      digitChar_isDigit (n % 10), if_true]
    rw [digitChar_toNat]
    congr 1
    rw [List.length_append, List.length_singleton, pow_succ]
    have hsplit : 10 * (n / 10) + n % 10 = n := Nat.div_add_mod n 10
    ring_nf
    omega

theorem readDigitsAcc_stop (rest : List Char) (acc : Nat)
    (h : ∀ c, rest.head? = some c → isAsciiDigitB c = false) :
    readDigitsAcc rest acc = (acc, rest) := by
  cases rest with
  | nil => rfl
  | cons c cs =>
    unfold readDigitsAcc
    rw [if_neg]
    rw [h c rfl]
    simp

theorem dropWhile_space_natRepr (n : Nat) (rest : List Char) :
    (natRepr n ++ rest).dropWhile isAsciiSpaceB = natRepr n ++ rest := by
  cases hn : natRepr n with
  | nil => exact absurd hn (natRepr_ne_nil n)
  | cons c cs =>
    have hc : isAsciiDigitB c = true := natRepr_digits n c (by rw [hn]; simp)
    simp only [List.cons_append, List.dropWhile_cons, digit_not_space c hc,
      Bool.false_eq_true, if_false]

theorem readInt_render (n : Nat) (rest : List Char)
    (h : ∀ c, rest.head? = some c → isAsciiDigitB c = false) :
    readInt (natRepr n ++ rest) = some ((n : Int), rest) := by
  unfold readInt
  rw [dropWhile_space_natRepr]
  cases hn : natRepr n with
  | nil => exact absurd hn (natRepr_ne_nil n)
  | cons c cs =>
    have hc : isAsciiDigitB c = true := natRepr_digits n c (by rw [hn]; simp)
    obtain ⟨hdash, hplus⟩ := digit_not_dash c hc
    simp only [List.cons_append, hdash, hplus, hc, Bool.false_eq_true, if_false,
      if_true]
    have := readDigitsAcc_append n rest 0
    rw [hn] at this
    simp only [List.cons_append] at this
    rw [this]
    rw [readDigitsAcc_stop rest ((0 * 10 ^ (c :: cs).length) + n) (by
      intro d hd
      exact h d hd)]
    simp

theorem readInt_cons_space (l : List Char) : readInt (' ' :: l) = readInt l := by
  unfold readInt
  rw [List.dropWhile_cons, if_pos (by decide)]

theorem litMatch_append (pat : List Char) :
    ∀ rest : List Char, litMatch pat (pat ++ rest) = some rest := by
  induction pat with
  | nil => intro rest; rfl
  | cons a as ih =>
    intro rest
    simp only [List.cons_append, litMatch, beq_self_eq_true, if_true]
    exact ih rest

theorem parse_render (n r g b : Nat) :
    parseColorLine (renderColorLine n r g b)
      = some ((n : Int), (r : Int), (g : Int), (b : Int)) := by
  have heq : String.toList " = " = ' ' :: '=' :: ' ' :: [] := rfl
  unfold renderColorLine parseColorLine
  simp only [List.append_assoc, heq, List.cons_append, List.nil_append]
  rw [litMatch_append]
  dsimp only
  rw [readInt_render n _ (by intro c hc; cases hc; rfl)]
  dsimp only
  rw [List.dropWhile_cons, if_pos (show isAsciiSpaceB ' ' = true by decide),
    List.dropWhile_cons, if_neg (show ¬ isAsciiSpaceB '=' = true by decide)]
  dsimp only
  rw [if_pos (show (('=' : Char) == '=') = true by decide)]
  rw [readInt_cons_space]
  rw [readInt_render r _ (by intro c hc; cases hc; rfl)]
  dsimp only
  rw [readInt_cons_space]
  rw [readInt_render g _ (by intro c hc; cases hc; rfl)]
  dsimp only
  rw [readInt_cons_space]
  rw [readInt_render b _ (by intro c hc; cases hc; rfl)]

/-! ### The save/load round trip -/

theorem applyLine_render (s : Nat → Nat × Nat × Nat) (n r g b : Nat)
    (hn : n ≤ 31 ∨ (256 ≤ n ∧ n ≤ 265)) :
    applyLine s (renderColorLine n r g b)
      = fun j => if j = (if 256 ≤ n then 32 + (n - 256) else n)
          then (r % 256, g % 256, b % 256) else s j := by
  unfold applyLine
  rw [parse_render]
  dsimp only
  have hguard : 0 ≤ (if 256 ≤ (n : Int) then 32 + ((n : Int) - 256) else (n : Int)) ∧
      (if 256 ≤ (n : Int) then 32 + ((n : Int) - 256) else (n : Int)) ≤ 41 := by
    split_ifs <;> omega
  rw [if_pos hguard]
  funext j
  have hidx : (if 256 ≤ (n : Int) then 32 + ((n : Int) - 256) else (n : Int)).toNat
      = (if 256 ≤ n then 32 + (n - 256) else n) := by
    split_ifs <;> omega
  have hr : (((r : Int)) % 256).toNat = r % 256 := by omega
  have hg : (((g : Int)) % 256).toNat = g % 256 := by omega
  have hb : (((b : Int)) % 256).toNat = b % 256 := by omega
  rw [hidx, hr, hg, hb]

theorem applyLine_skip (s : Nat → Nat × Nat × Nat) (l : List Char)
    (h : parseColorLine l = none) : applyLine s l = s := by
  unfold applyLine
  rw [h]

/-- Loading the lines for indices `0..m-1` writes exactly those
indices (with the unsigned-char truncation). -/
theorem fold_lower (st : Nat → Nat × Nat × Nat) :
    ∀ (m : Nat), m ≤ 32 →
      ∀ (init : Nat → Nat × Nat × Nat) (j : Nat),
        (((List.range m).map
            (fun i => renderColorLine i (st i).1 (st i).2.1 (st i).2.2)).foldl
          applyLine init) j
          = if j < m then ((st j).1 % 256, (st j).2.1 % 256, (st j).2.2 % 256)
            else init j := by
  intro m
  induction m with
  | zero => intro _ init j; simp
  | succ m ih =>
    intro hm init j
    rw [List.range_succ, List.map_append, List.foldl_append]
    simp only [List.map_cons, List.map_nil, List.foldl_cons, List.foldl_nil]
    rw [applyLine_render _ m _ _ _ (Or.inl (by omega))]
    simp only [if_neg (show ¬ 256 ≤ m by omega)]
    by_cases hj : j = m
    · subst hj
      rw [if_pos rfl, if_pos (by omega)]
    · rw [if_neg hj, ih (by omega) init j]
      by_cases hjm : j < m
      · rw [if_pos hjm, if_pos (by omega)]
      · rw [if_neg hjm, if_neg (by omega)]

/-- Loading the lines for UI-role indices (written as 256+i) writes
exactly internal indices `32..32+m-1`. -/
theorem fold_upper (st : Nat → Nat × Nat × Nat) :
    ∀ (m : Nat), m ≤ 10 →
      ∀ (init : Nat → Nat × Nat × Nat) (j : Nat),
        (((List.range m).map (fun i =>
            renderColorLine (256 + i) (st (32 + i)).1 (st (32 + i)).2.1
              (st (32 + i)).2.2)).foldl applyLine init) j
          = if 32 ≤ j ∧ j < 32 + m then
              ((st j).1 % 256, (st j).2.1 % 256, (st j).2.2 % 256)
            else init j := by
  intro m
  induction m with
  | zero => intro _ init j; simp only [List.range_zero, List.map_nil,
      List.foldl_nil]; rw [if_neg (by omega)]
  | succ m ih =>
    intro hm init j
    rw [List.range_succ, List.map_append, List.foldl_append]
    simp only [List.map_cons, List.map_nil, List.foldl_cons, List.foldl_nil]
    rw [applyLine_render _ (256 + m) _ _ _ (Or.inr (by omega))]
    simp only [if_pos (show 256 ≤ 256 + m by omega)]
    have htgt : 32 + (256 + m - 256) = 32 + m := by omega
    rw [htgt]
    by_cases hj : j = 32 + m
    · subst hj
      rw [if_pos rfl, if_pos (by omega)]
    · rw [if_neg hj, ih (by omega) init j]
      by_cases hjm : 32 ≤ j ∧ j < 32 + m
      · rw [if_pos hjm, if_pos (by omega)]
      · rw [if_neg hjm, if_neg (by omega)]

/-- C8: saving the palette and loading the produced lines into a fresh
store reproduces the stored (r,g,b) at every index 0..MAX_COL,
including the 256-offset remapping of the UI-role indices 32..41; and
a load skips lines that do not parse, with no error and no state
change (loading any line list equals loading only its well-formed
lines). -/
theorem C8_palette_roundtrip (st init : Nat → Nat × Nat × Nat)
    (h : ∀ j, j < 42 →
      (st j).1 < 256 ∧ (st j).2.1 < 256 ∧ (st j).2.2 < 256) :
    (∀ j, j < 42 → palette_load (palette_save st) init j = st j) ∧
    (∀ (lines : List (List Char)) (s0 : Nat → Nat × Nat × Nat),
      palette_load lines s0
        = palette_load (lines.filter (fun l => (parseColorLine l).isSome)) s0) := by
  constructor
  · intro j hj
    obtain ⟨h1, h2, h3⟩ := h j hj
    unfold palette_load palette_save
    rw [List.foldl_append]
    rw [fold_upper st 10 (le_refl 10) _ j]
    by_cases h32 : 32 ≤ j
    · rw [if_pos ⟨h32, by omega⟩]
      rw [Nat.mod_eq_of_lt h1, Nat.mod_eq_of_lt h2, Nat.mod_eq_of_lt h3]
    · rw [if_neg (by omega)]
      rw [fold_lower st 32 (le_refl 32) init j]
      rw [if_pos (by omega)]
      rw [Nat.mod_eq_of_lt h1, Nat.mod_eq_of_lt h2, Nat.mod_eq_of_lt h3]
  · intro lines
    induction lines with
    | nil => intro s0; rfl
    | cons l rest ih =>
      intro s0
      unfold palette_load
      rw [List.foldl_cons]
      cases hp : parseColorLine l with
      | none =>
        rw [applyLine_skip s0 l hp]
        rw [List.filter_cons_of_neg (by simp [hp])]
        exact ih s0
      | some v =>
        rw [List.filter_cons_of_pos (by simp [hp])]
        rw [List.foldl_cons]
        exact ih (applyLine s0 l)

/-- The built-in default palette (fe-fltk.cpp:588-622): mIRC colors
0-15, their 16-31 duplicates, and the UI-role colors 32-41. -/
def default_palette_colors : List (Nat × Nat × Nat) :=
  [(211, 215, 207), (46, 52, 54), (52, 101, 164), (78, 154, 6),
   (204, 0, 0), (143, 57, 2), (92, 53, 102), (206, 92, 0),
   (196, 160, 0), (115, 210, 22), (17, 168, 121), (88, 161, 157),
   (87, 121, 158), (160, 66, 101), (85, 87, 83), (136, 138, 133),
   (211, 215, 207), (46, 52, 54), (52, 101, 164), (78, 154, 6),
   (204, 0, 0), (143, 57, 2), (92, 53, 102), (206, 92, 0),
   (196, 160, 0), (115, 210, 22), (17, 168, 121), (88, 161, 157),
   (87, 121, 158), (160, 66, 101), (85, 87, 83), (136, 138, 133),
   (211, 215, 207), (32, 74, 135), (37, 41, 43), (250, 250, 248),
   (143, 57, 2), (52, 101, 164), (78, 154, 6), (206, 92, 0),
   (136, 138, 133), (164, 0, 0)]

def defaultPalette (i : Nat) : Nat × Nat × Nat :=
  default_palette_colors.getD i (0, 0, 0)

/-- C8 witness: the default palette satisfies the byte-range
hypothesis and round-trips. -/
theorem C8_witness :
    (∀ j, j < 42 → (defaultPalette j).1 < 256 ∧
      (defaultPalette j).2.1 < 256 ∧ (defaultPalette j).2.2 < 256) ∧
    ((∀ j, j < 42 →
        palette_load (palette_save defaultPalette) defaultPalette j
          = defaultPalette j) ∧
     (∀ (lines : List (List Char)) (s0 : Nat → Nat × Nat × Nat),
       palette_load lines s0
         = palette_load (lines.filter (fun l => (parseColorLine l).isSome)) s0)) :=
  ⟨by decide, C8_palette_roundtrip defaultPalette defaultPalette (by decide)⟩

end FlexChat
